import Mathlib

/-!
Verification development for the PNGProtect core: the LSB watermark codec
(`backend/app/services/watermarking.py`), the heuristic scoring strategy
(`backend/app/services/ml_classifier.py`), the rule-based forensics analyzer
(`backend/app/services/forensics.py`) and the detection orchestrator
(`backend/app/services/detection.py`).

Modelling conventions:
* Python strings are modelled as lists of Unicode code points (`List ℕ`).
* An RGB pixel buffer is modelled by its row-major, channel-minor flattening
  (`List ℕ`, entries `< 256`); the 2-D/3-D structure is recovered by
  `flattenImg` where a claim talks about raster order.
* Exact rational arithmetic (`ℚ`) stands in for Python floats where the code
  only adds, multiplies, divides and compares; real arithmetic (`ℝ`) is used
  for the forensic detectors, which involve `log`, `sqrt`, `exp` and the DFT.
-/

namespace PNGProtect

/-! ### Watermark codec (`watermarking.py`) -/

/-- Code points of the delimiter string `"@@@@"`. -/
def delimCodes : List ℕ := [64, 64, 64, 64]

/-- Code points of the sentinel string `"Unknown"`. -/
def unknownCodes : List ℕ := [85, 110, 107, 110, 111, 119, 110]

/-- Code points of the owner text `"alice"`. -/
def aliceCodes : List ℕ := [97, 108, 105, 99, 101]

/-- Fuel-driven base-2 digit expansion, most significant bit first.
`natToBinAux fuel n` equals the reversed `Nat.digits 2 n` whenever `n ≤ fuel`. -/
def natToBinAux : ℕ → ℕ → List ℕ
  | 0, _ => []
  | fuel + 1, n => if n = 0 then [] else natToBinAux fuel (n / 2) ++ [n % 2]

/-- Binary expansion of `n`, most significant bit first (empty for `0`),
mirroring the digits of Python's `format(n, 'b')`. -/
def natToBin (n : ℕ) : List ℕ := natToBinAux n n

/-- Bits contributed by one character: `format(ord(c), '08b')` — the binary
expansion left-padded with zeros to a minimum width of 8. -/
def bitsOfChar (c : ℕ) : List ℕ :=
  List.replicate (8 - (natToBin c).length) 0 ++ natToBin c

/-- Bits of `watermark_text + "@@@@"`:
`''.join(format(ord(i), '08b') for i in data)`. -/
def payloadBits (text : List ℕ) : List ℕ :=
  (text ++ delimCodes).flatMap bitsOfChar

/-- The full bitstream `binary_data * strength`. -/
def bitstream (text : List ℕ) (strength : ℕ) : List ℕ :=
  (List.replicate strength (payloadBits text)).flatten

/-- Per-channel write: clear the least significant bit and OR in the payload
bit (`(value & 0xFE) | bit`). -/
def embedChan (v b : ℕ) : ℕ := (v &&& 254) ||| b

/-- Capacity failure, reporting required vs. available bits as the raised
`ValueError` message does. -/
structure CapacityError where
  required : ℕ
  available : ℕ
deriving DecidableEq, Repr

/-- `embed_watermark_lsb` on the flattened channel list: build the bitstream,
fail if it exceeds the number of channel values, otherwise overwrite the LSBs
of the first `len(bitstream)` channels and leave the rest untouched.
Returns the new flat buffer together with the bitstream. -/
def embed_watermark_lsb (flat text : List ℕ) (strength : ℕ) :
    Except CapacityError (List ℕ × List ℕ) :=
  let bits := bitstream text strength
  if bits.length > flat.length then
    Except.error ⟨bits.length, flat.length⟩
  else
    Except.ok (List.zipWith embedChan flat bits ++ flat.drop bits.length, bits)

/-- The least significant bits of the bounded prefix
(`flat_array[:15000] & 1`). -/
def lsbPrefix (flat : List ℕ) : List ℕ :=
  (flat.take 15000).map (fun v => v % 2)

/-- Fuel-driven split into consecutive 8-bit windows. -/
def chunks8Aux : ℕ → List ℕ → List (List ℕ)
  | 0, _ => []
  | fuel + 1, l => if l = [] then [] else l.take 8 :: chunks8Aux fuel (l.drop 8)

/-- Split a bit list into consecutive windows of (at most) 8 bits, in stream
order: `[binary_data[i:i+8] for i in range(0, len(binary_data), 8)]`. -/
def chunks8 (l : List ℕ) : List (List ℕ) := chunks8Aux l.length l

/-- Value of a binary window read most significant bit first (`int(b, 2)`). -/
def byteVal (w : List ℕ) : ℕ := w.foldl (fun a b => 2 * a + b) 0

/-- Python's `chr`: total on code points below `0x110000`, raising otherwise.
Characters are modelled by their code points. -/
def pyChr (n : ℕ) : Option ℕ := if n < 1114112 then some n else none

/-- Substring test `"@@@@" in s`. -/
def hasDelim : List ℕ → Bool
  | [] => delimCodes.isPrefixOf []
  | c :: t => delimCodes.isPrefixOf (c :: t) || hasDelim t

/-- Everything before the first occurrence of the delimiter:
`decoded.split("@@@@")[0]`. -/
def splitFirst : List ℕ → List ℕ
  | [] => []
  | c :: t => if delimCodes.isPrefixOf (c :: t) then [] else c :: splitFirst t

/-- Decoding loop of `extract_watermark_lsb`: walk the 8-bit windows, decode
each full window with `chr` (skipping a window `chr` rejects), append to the
running string, and stop with indicator `1.0` as soon as it contains the
delimiter; fall through to `("Unknown", 0.1)`. -/
def goExtract (dec : List ℕ) : List (List ℕ) → List ℕ × ℚ
  | [] => (unknownCodes, 1 / 10)
  | w :: rest =>
    if w.length = 8 then
      match pyChr (byteVal w) with
      | none => goExtract dec rest
      | some c =>
        let d := dec ++ [c]
        if hasDelim d then (splitFirst d, 1) else goExtract d rest
    else goExtract dec rest

/-- `extract_watermark_lsb` on the flattened channel list. -/
def extract_watermark_lsb (flat : List ℕ) : List ℕ × ℚ :=
  goExtract [] (chunks8 (lsbPrefix flat))

/-- Variant of the decoding loop with the unreachable skip branch removed:
every full window is decoded unconditionally. -/
def goExtractTotal (dec : List ℕ) : List (List ℕ) → List ℕ × ℚ
  | [] => (unknownCodes, 1 / 10)
  | w :: rest =>
    if w.length = 8 then
      let d := dec ++ [byteVal w]
      if hasDelim d then (splitFirst d, 1) else goExtractTotal d rest
    else goExtractTotal dec rest

/-- Extraction with the skip branch removed. -/
def extractTotal (flat : List ℕ) : List ℕ × ℚ :=
  goExtractTotal [] (chunks8 (lsbPrefix flat))

/-- The character codes produced from all full 8-bit windows of the prefix:
the complete "running decoded string" if the loop never stopped early. -/
def windowCodes (ws : List (List ℕ)) : List ℕ :=
  ws.filterMap (fun w => if w.length = 8 then pyChr (byteVal w) else none)

/-- Row-major, channel-minor flattening of an `h × w` RGB buffer, as performed
by `np.array(image).flatten()`. -/
def flattenImg (h w : ℕ) (pix : Fin h → Fin w → Fin 3 → ℕ) : List ℕ :=
  (List.finRange h).flatMap fun r =>
    (List.finRange w).flatMap fun c =>
      (List.finRange 3).map fun ch => pix r c ch

/-! ### Basic lemmas about the codec -/

theorem natToBinAux_eq_digits (fuel : ℕ) :
    ∀ n, n ≤ fuel → natToBinAux fuel n = (Nat.digits 2 n).reverse := by
  induction fuel with
  | zero =>
    intro n hn
    interval_cases n
    simp [natToBinAux]
  | succ k ih =>
    intro n hn
    by_cases h0 : n = 0
    · simp [natToBinAux, h0]
    · have hpos : 0 < n := Nat.pos_of_ne_zero h0
      have hdiv : n / 2 ≤ k := by
        have := Nat.div_lt_self hpos one_lt_two
        omega
      rw [natToBinAux, if_neg h0, ih _ hdiv, Nat.digits_def' one_lt_two hpos]
      simp

theorem natToBin_eq_digits (n : ℕ) : natToBin n = (Nat.digits 2 n).reverse :=
  natToBinAux_eq_digits n n le_rfl

theorem natToBin_mem_le_one {n b : ℕ} (hb : b ∈ natToBin n) : b ≤ 1 := by
  rw [natToBin_eq_digits, List.mem_reverse] at hb
  have := Nat.digits_lt_base one_lt_two hb
  omega

theorem natToBin_length_le_eight {n : ℕ} (hn : n < 256) :
    (natToBin n).length ≤ 8 := by
  rw [natToBin_eq_digits, List.length_reverse]
  by_cases h0 : n = 0
  · simp [h0]
  · have h2 := Nat.base_pow_length_digits_le 2 n one_lt_two h0
    by_contra hlen
    have h9 : 9 ≤ (Nat.digits 2 n).length := by omega
    have : (2 : ℕ) ^ 9 ≤ 2 ^ (Nat.digits 2 n).length :=
      Nat.pow_le_pow_right (by omega) h9
    omega

theorem bitsOfChar_mem_le_one {c b : ℕ} (hb : b ∈ bitsOfChar c) : b ≤ 1 := by
  rcases List.mem_append.mp hb with h | h
  · have := List.eq_of_mem_replicate h
    omega
  · exact natToBin_mem_le_one h

theorem bitsOfChar_length {c : ℕ} (hc : c < 256) : (bitsOfChar c).length = 8 := by
  have := natToBin_length_le_eight hc
  simp only [bitsOfChar, List.length_append, List.length_replicate]
  omega

theorem bitsOfChar_length_ge (c : ℕ) : 8 ≤ (bitsOfChar c).length := by
  simp only [bitsOfChar, List.length_append, List.length_replicate]
  omega

theorem payloadBits_mem_le_one {text : List ℕ} {b : ℕ}
    (hb : b ∈ payloadBits text) : b ≤ 1 := by
  rcases List.mem_flatMap.mp hb with ⟨c, _, hbc⟩
  exact bitsOfChar_mem_le_one hbc

theorem bitstream_mem_le_one {text : List ℕ} {s b : ℕ}
    (hb : b ∈ bitstream text s) : b ≤ 1 := by
  rcases List.mem_flatten.mp hb with ⟨l, hl, hbl⟩
  have := List.eq_of_mem_replicate hl
  exact payloadBits_mem_le_one (this ▸ hbl)

theorem flatMap_length_const {α : Type} (f : α → List ℕ) (B : ℕ) :
    ∀ l : List α, (∀ a ∈ l, (f a).length = B) → (l.flatMap f).length = l.length * B := by
  intro l hl
  induction l with
  | nil => simp
  | cons x t ih =>
    simp only [List.flatMap_cons, List.length_append, List.length_cons]
    rw [hl x (by simp), ih (fun a ha => hl a (by simp [ha]))]
    ring

theorem payloadBits_length {text : List ℕ} (h : ∀ c ∈ text, c < 256) :
    (payloadBits text).length = 8 * (text.length + 4) := by
  rw [payloadBits, flatMap_length_const bitsOfChar 8]
  · simp [delimCodes]; ring
  · intro a ha
    rcases List.mem_append.mp ha with hc | hc
    · exact bitsOfChar_length (h a hc)
    · fin_cases hc <;> exact bitsOfChar_length (by omega)

theorem payloadBits_length_ge (text : List ℕ) :
    8 * (text.length + 4) ≤ (payloadBits text).length := by
  induction text with
  | nil =>
    have : payloadBits [] = bitsOfChar 64 ++ (bitsOfChar 64 ++ (bitsOfChar 64 ++
        (bitsOfChar 64 ++ []))) := by
      simp [payloadBits, delimCodes]
    rw [this]
    have h64 : (bitsOfChar 64).length = 8 := bitsOfChar_length (by omega)
    simp [h64]
  | cons c t ih =>
    have : payloadBits (c :: t) = bitsOfChar c ++ payloadBits t := by
      simp [payloadBits]
    rw [this, List.length_append]
    have := bitsOfChar_length_ge c
    simp only [List.length_cons]
    omega

theorem bitstream_length (text : List ℕ) (s : ℕ) :
    (bitstream text s).length = s * (payloadBits text).length := by
  induction s with
  | zero => simp [bitstream]
  | succ k ih =>
    have : bitstream text (k + 1) = payloadBits text ++ bitstream text k := by
      simp [bitstream, List.replicate_succ]
    rw [this, List.length_append, ih]
    ring

theorem bitstream_length_ascii {text : List ℕ} (h : ∀ c ∈ text, c < 256) (s : ℕ) :
    (bitstream text s).length = s * (8 * (text.length + 4)) := by
  rw [bitstream_length, payloadBits_length h]

/-! ### Window lemmas -/

theorem chunks8Aux_fuel (f1 : ℕ) :
    ∀ (l : List ℕ) (f2 : ℕ), l.length ≤ f1 → l.length ≤ f2 →
      chunks8Aux f1 l = chunks8Aux f2 l := by
  induction f1 with
  | zero =>
    intro l f2 h1 _
    have : l = [] := List.eq_nil_of_length_eq_zero (by omega)
    subst this
    cases f2 <;> simp [chunks8Aux]
  | succ k ih =>
    intro l f2 h1 h2
    by_cases hl : l = []
    · subst hl; cases f2 <;> simp [chunks8Aux]
    · have hlen : 1 ≤ l.length := by
        cases l with
        | nil => exact absurd rfl hl
        | cons a t => simp
      cases f2 with
      | zero => omega
      | succ m =>
        simp only [chunks8Aux, if_neg hl]
        rw [ih (l.drop 8) m (by simp; omega) (by simp; omega)]

theorem chunks8_cons_eq {l : List ℕ} (hl : l ≠ []) :
    chunks8 l = l.take 8 :: chunks8 (l.drop 8) := by
  have hlen : 1 ≤ l.length := by
    cases l with
    | nil => exact absurd rfl hl
    | cons a t => simp
  cases hfl : l.length with
  | zero => omega
  | succ m =>
    simp only [chunks8, hfl, chunks8Aux, if_neg hl]
    congr 1
    rw [chunks8Aux_fuel m (l.drop 8) (l.drop 8).length (by simp; omega) le_rfl]

theorem chunks8_append8 {a : List ℕ} (b : List ℕ) (ha : a.length = 8) :
    chunks8 (a ++ b) = a :: chunks8 b := by
  have hne : a ++ b ≠ [] := by
    intro h
    have := congrArg List.length h
    simp [ha] at this
  rw [chunks8_cons_eq hne]
  have h1 : (a ++ b).take 8 = a := by
    rw [List.take_append_eq_append_take, ha, List.take_of_length_le (le_of_eq ha)]
    simp
  have h2 : (a ++ b).drop 8 = b := by
    rw [List.drop_append_eq_append_drop, ha, List.drop_eq_nil_of_le (le_of_eq ha)]
    simp
  rw [h1, h2]

theorem chunks8Aux_windows (fuel : ℕ) :
    ∀ (l : List ℕ) (w : List ℕ), w ∈ chunks8Aux fuel l →
      w.length ≤ 8 ∧ ∀ b ∈ w, b ∈ l := by
  induction fuel with
  | zero => intro l w hw; simp [chunks8Aux] at hw
  | succ k ih =>
    intro l w hw
    by_cases hl : l = []
    · subst hl; simp [chunks8Aux] at hw
    · simp only [chunks8Aux, if_neg hl, List.mem_cons] at hw
      rcases hw with rfl | hw
      · refine ⟨by simp, fun b hb => ?_⟩
        exact List.mem_of_mem_take hb
      · rcases ih (l.drop 8) w hw with ⟨h1, h2⟩
        exact ⟨h1, fun b hb => List.mem_of_mem_drop (h2 b hb)⟩

theorem chunks8_windows {l w : List ℕ} (hw : w ∈ chunks8 l) :
    w.length ≤ 8 ∧ ∀ b ∈ w, b ∈ l :=
  chunks8Aux_windows l.length l w hw

theorem lsbPrefix_mem_le_one {flat : List ℕ} {b : ℕ} (hb : b ∈ lsbPrefix flat) :
    b ≤ 1 := by
  rcases List.mem_map.mp hb with ⟨v, _, rfl⟩
  omega

theorem byteVal_foldl_lt (w : List ℕ) :
    ∀ acc, (∀ b ∈ w, b ≤ 1) → w.foldl (fun a b => 2 * a + b) acc < (acc + 1) * 2 ^ w.length := by
  induction w with
  | nil => intro acc _; simp
  | cons b t ih =>
    intro acc hb
    have hble : b ≤ 1 := hb b (by simp)
    have := ih (2 * acc + b) (fun x hx => hb x (by simp [hx]))
    have hle : (2 * acc + b + 1) * 2 ^ t.length ≤ (acc + 1) * 2 ^ (t.length + 1) := by
      rw [pow_succ]
      nlinarith [pow_pos (by omega : (0:ℕ) < 2) t.length]
    simp only [List.foldl_cons, List.length_cons]
    omega

theorem byteVal_lt {w : List ℕ} (hw : ∀ b ∈ w, b ≤ 1) : byteVal w < 2 ^ w.length := by
  have := byteVal_foldl_lt w 0 hw
  simpa [byteVal] using this

theorem hasDelim_iff (l : List ℕ) : hasDelim l = true ↔ delimCodes <:+: l := by
  induction l with
  | nil =>
    constructor
    · intro h
      have : delimCodes.isPrefixOf ([] : List ℕ) = true := h
      simp [delimCodes] at this
    · intro h
      have := List.eq_nil_of_infix_nil h
      simp [delimCodes] at this
  | cons c t ih =>
    simp only [hasDelim, Bool.or_eq_true, List.isPrefixOf_iff_prefix, ih]
    rw [List.infix_cons_iff]

/-! ### Behaviour of the decode loop -/

theorem goExtract_snd (ws : List (List ℕ)) :
    ∀ dec, (goExtract dec ws).2 = 1 ∨ (goExtract dec ws).2 = 1 / 10 := by
  induction ws with
  | nil => intro dec; right; rfl
  | cons w rest ih =>
    intro dec
    by_cases hw : w.length = 8
    · cases hpc : pyChr (byteVal w) with
      | none => simpa [goExtract, hw, hpc] using ih dec
      | some c =>
        by_cases hd : hasDelim (dec ++ [c])
        · left; simp [goExtract, hw, hpc, hd]
        · simpa [goExtract, hw, hpc, hd] using ih (dec ++ [c])
    · simpa [goExtract, hw] using ih dec

theorem goExtract_noDelim (ws : List (List ℕ)) :
    ∀ dec, ¬ delimCodes <:+: (dec ++ windowCodes ws) →
      goExtract dec ws = (unknownCodes, 1 / 10) := by
  induction ws with
  | nil => intro dec _; rfl
  | cons w rest ih =>
    intro dec hnd
    by_cases hw : w.length = 8
    · cases hpc : pyChr (byteVal w) with
      | none =>
        have hwc : windowCodes (w :: rest) = windowCodes rest := by
          simp [windowCodes, hw, hpc]
        rw [hwc] at hnd
        simpa [goExtract, hw, hpc] using ih dec hnd
      | some c =>
        have hwc : windowCodes (w :: rest) = c :: windowCodes rest := by
          simp [windowCodes, hw, hpc]
        rw [hwc] at hnd
        by_cases hd : hasDelim (dec ++ [c])
        · exfalso
          apply hnd
          have hinf : delimCodes <:+: dec ++ [c] := (hasDelim_iff _).mp hd
          refine hinf.trans ⟨[], windowCodes rest, ?_⟩
          simp
        · have : ¬ delimCodes <:+: (dec ++ [c]) ++ windowCodes rest := by
            simpa using hnd
          simpa [goExtract, hw, hpc, hd] using ih (dec ++ [c]) this
    · have hwc : windowCodes (w :: rest) = windowCodes rest := by
        simp [windowCodes, hw]
      rw [hwc] at hnd
      simpa [goExtract, hw] using ih dec hnd

theorem goExtract_eq_total (ws : List (List ℕ)) :
    ∀ dec, (∀ w ∈ ws, ∀ b ∈ w, b ≤ 1) → goExtract dec ws = goExtractTotal dec ws := by
  induction ws with
  | nil => intro dec _; rfl
  | cons w rest ih =>
    intro dec hbits
    have hrest : ∀ w ∈ rest, ∀ b ∈ w, b ≤ 1 :=
      fun x hx => hbits x (by simp [hx])
    by_cases hw : w.length = 8
    · have hlt : byteVal w < 1114112 := by
        have h1 := byteVal_lt (hbits w (by simp))
        have h2 : (2:ℕ) ^ w.length ≤ 2 ^ 8 := Nat.pow_le_pow_right (by omega) (by omega)
        omega
      have hpc : pyChr (byteVal w) = some (byteVal w) := by
        simp [pyChr, hlt]
      by_cases hd : hasDelim (dec ++ [byteVal w])
      · simp [goExtract, goExtractTotal, hw, hpc, hd]
      · simp only [goExtract, goExtractTotal, hw, hpc, if_true, if_neg hd]
        simpa [hw] using ih (dec ++ [byteVal w]) hrest
    · simpa [goExtract, goExtractTotal, hw] using ih dec hrest

theorem lsb_window_bits {flat w : List ℕ} (hw : w ∈ chunks8 (lsbPrefix flat)) :
    ∀ b ∈ w, b ≤ 1 :=
  fun b hb => lsbPrefix_mem_le_one ((chunks8_windows hw).2 b hb)

/-- C10: during extraction every window drawn from the LSB prefix has a value
below 256, `chr` accepts it, and therefore extraction coincides with the
variant whose skip branch has been deleted — the except-and-continue branch is
unreachable. -/
theorem extract_never_skips (flat : List ℕ) :
    (∀ w ∈ chunks8 (lsbPrefix flat),
        byteVal w < 256 ∧ (pyChr (byteVal w)).isSome = true)
    ∧ extract_watermark_lsb flat = extractTotal flat := by
  constructor
  · intro w hw
    have hbits := lsb_window_bits hw
    have h1 := byteVal_lt hbits
    have h2 : (2:ℕ) ^ w.length ≤ 2 ^ 8 :=
      Nat.pow_le_pow_right (by omega) (chunks8_windows hw).1
    have hlt : byteVal w < 256 := by omega
    exact ⟨hlt, by simp [pyChr]; omega⟩
  · exact goExtract_eq_total _ _ (fun w hw => lsb_window_bits hw)

/-- Witness for `extract_never_skips` at a concrete 8-channel buffer. -/
theorem extract_never_skips_witness :
    (byteVal (List.replicate 8 1) < 256
        ∧ (pyChr (byteVal (List.replicate 8 1))).isSome = true)
    ∧ extract_watermark_lsb (List.replicate 8 1) = extractTotal (List.replicate 8 1) :=
  ⟨(extract_never_skips (List.replicate 8 1)).1 (List.replicate 8 1) (by decide),
   (extract_never_skips (List.replicate 8 1)).2⟩

/-- C5: extraction only looks at the first `min(totalChannels, 15000)` channel
values, its indicator is always `1.0` or `0.1`, and when the delimiter never
appears in the running decoded string it returns exactly `("Unknown", 0.1)`. -/
theorem extract_bounded_and_not_found (flat : List ℕ) :
    extract_watermark_lsb flat = extract_watermark_lsb (flat.take 15000)
    ∧ ((extract_watermark_lsb flat).2 = 1 ∨ (extract_watermark_lsb flat).2 = 1 / 10)
    ∧ (¬ delimCodes <:+: windowCodes (chunks8 (lsbPrefix flat)) →
        extract_watermark_lsb flat = (unknownCodes, 1 / 10)) := by
  refine ⟨?_, goExtract_snd _ [], fun hnd => ?_⟩
  · simp [extract_watermark_lsb, lsbPrefix, List.take_take]
  · exact goExtract_noDelim _ [] (by simpa using hnd)

/-- Witness for `extract_bounded_and_not_found` at the empty buffer. -/
theorem extract_bounded_and_not_found_witness :
    (¬ delimCodes <:+: windowCodes (chunks8 (lsbPrefix [])))
    ∧ extract_watermark_lsb [] = (unknownCodes, 1 / 10) :=
  ⟨by decide, (extract_bounded_and_not_found []).2.2 (by decide)⟩

/-! ### Bitstream shape (strength linearity, prefix stability) -/

theorem bitstream_isPrefix_of_le {text : List ℕ} {s1 s2 : ℕ} (h12 : s1 ≤ s2) :
    bitstream text s1 <+: bitstream text s2 := by
  have h : bitstream text s2 =
      bitstream text s1 ++ (List.replicate (s2 - s1) (payloadBits text)).flatten := by
    rw [bitstream, bitstream, ← List.flatten_append, ← List.replicate_add]
    congr 2
    omega
  exact ⟨_, h.symm⟩

theorem embed_def (flat text : List ℕ) (s : ℕ) :
    embed_watermark_lsb flat text s =
      if (bitstream text s).length > flat.length then
        Except.error ⟨(bitstream text s).length, flat.length⟩
      else
        Except.ok (List.zipWith embedChan flat (bitstream text s) ++
          flat.drop (bitstream text s).length, bitstream text s) := rfl

theorem take_eq_of_isPrefix {l1 l2 : List ℕ} (hp : l1 <+: l2) {n : ℕ}
    (hn : n ≤ l1.length) : l1.take n = l2.take n := by
  rcases hp with ⟨t, rfl⟩
  rw [List.take_append_eq_append_take]
  have : n - l1.length = 0 := by omega
  simp [this]

/-- C7 (corrected): the bitstream length is `strength · 8 · len(ownerText +
"@@@@")` for owner texts of 8-bit characters; for `s1 ≤ s2` the `s1`-stream is
a prefix of the `s2`-stream, and (for `s1 ≥ 1`) the first
`8 · len(ownerText + "@@@@")` bits agree across strengths. -/
theorem bitstream_length_and_copy_stability (text : List ℕ) (s1 s2 : ℕ) (h12 : s1 ≤ s2) :
    ((∀ c ∈ text, c < 256) →
      (bitstream text s1).length = s1 * (8 * (text.length + 4)))
    ∧ bitstream text s1 <+: bitstream text s2
    ∧ (1 ≤ s1 → (bitstream text s1).take (8 * (text.length + 4)) =
        (bitstream text s2).take (8 * (text.length + 4))) := by
  refine ⟨fun ha => bitstream_length_ascii ha s1, bitstream_isPrefix_of_le h12, fun hs1 => ?_⟩
  apply take_eq_of_isPrefix (bitstream_isPrefix_of_le h12)
  rw [bitstream_length]
  have h1 := payloadBits_length_ge text
  calc 8 * (text.length + 4) ≤ (payloadBits text).length := h1
    _ = 1 * (payloadBits text).length := by ring
    _ ≤ s1 * (payloadBits text).length := Nat.mul_le_mul_right _ hs1

/-- C7 counterexample: for the one-character owner text with code point 256
the bitstream is 41 bits long, not `1·8·5 = 40`; and at strength 0 the first
40 bits are not stable (the stream is empty). -/
theorem bitstream_length_counterexample :
    (bitstream [256] 1).length ≠ 1 * (8 * (([256] : List ℕ).length + 4))
    ∧ (bitstream [97] 0).take (8 * (([97] : List ℕ).length + 4)) ≠
      (bitstream [97] 1).take (8 * (([97] : List ℕ).length + 4)) := by
  decide

/-- Witness for `bitstream_length_and_copy_stability` at `text = "a"`, strengths 1 ≤ 2. -/
theorem bitstream_length_and_copy_stability_witness :
    (bitstream [97] 1).length = 1 * (8 * (([97] : List ℕ).length + 4))
    ∧ bitstream [97] 1 <+: bitstream [97] 2
    ∧ (bitstream [97] 1).take (8 * (([97] : List ℕ).length + 4)) =
      (bitstream [97] 2).take (8 * (([97] : List ℕ).length + 4)) :=
  ⟨(bitstream_length_and_copy_stability [97] 1 2 (by decide)).1 (by decide),
   (bitstream_length_and_copy_stability [97] 1 2 (by decide)).2.1,
   (bitstream_length_and_copy_stability [97] 1 2 (by decide)).2.2 (by decide)⟩

/-! ### Capacity boundary -/

/-- C4 (corrected): for owner texts of 8-bit characters, embedding fails with
the capacity error — reporting required and available bit counts — exactly
when `strength · 8 · len(ownerText + "@@@@")` exceeds the channel count, and
succeeds (returning the bitstream unmodified) when the bit length equals the
channel count. -/
theorem embed_capacity (flat text : List ℕ) (s : ℕ)
    (hascii : ∀ c ∈ text, c < 256) :
    ((embed_watermark_lsb flat text s =
        Except.error ⟨s * (8 * (text.length + 4)), flat.length⟩) ↔
      flat.length < s * (8 * (text.length + 4)))
    ∧ (s * (8 * (text.length + 4)) = flat.length →
      ∃ out, embed_watermark_lsb flat text s = Except.ok (out, bitstream text s)) := by
  have hL : (bitstream text s).length = s * (8 * (text.length + 4)) :=
    bitstream_length_ascii hascii s
  constructor
  · constructor
    · intro herr
      by_contra hle
      have hnot : ¬ ((bitstream text s).length > flat.length) := by omega
      rw [embed_def, if_neg hnot] at herr
      exact absurd herr (by simp)
    · intro hlt
      have hgt : (bitstream text s).length > flat.length := by omega
      rw [embed_def, if_pos hgt, hL]
  · intro heq
    have hnot : ¬ ((bitstream text s).length > flat.length) := by omega
    rw [embed_def, if_neg hnot]
    exact ⟨_, rfl⟩

/-- C4 counterexample: with owner text `[256]` (a single character of code
point 256, contributing 9 bits) and 40 channels, the code raises the capacity
error even though the claimed bit count `1·8·5 = 40` does not exceed 40. -/
theorem embed_capacity_counterexample :
    embed_watermark_lsb (List.replicate 40 0) [256] 1 = Except.error ⟨41, 40⟩
    ∧ ¬ ((List.replicate 40 (0 : ℕ)).length <
        1 * (8 * (([256] : List ℕ).length + 4))) :=
  ⟨rfl, by decide⟩

/-- Witness for `embed_capacity` at an exactly-full 40-channel buffer. -/
theorem embed_capacity_witness :
    ((embed_watermark_lsb (List.replicate 40 0) [97] 1 =
        Except.error ⟨1 * (8 * (([97] : List ℕ).length + 4)),
          (List.replicate 40 (0 : ℕ)).length⟩) ↔
      (List.replicate 40 (0 : ℕ)).length < 1 * (8 * (([97] : List ℕ).length + 4)))
    ∧ ∃ out, embed_watermark_lsb (List.replicate 40 0) [97] 1 =
        Except.ok (out, bitstream [97] 1) :=
  ⟨(embed_capacity (List.replicate 40 0) [97] 1 (by decide)).1,
   (embed_capacity (List.replicate 40 0) [97] 1 (by decide)).2 (by decide)⟩

/-! ### Embed frame effect -/

theorem embedChan_lt (v : ℕ) {b : ℕ} (hb : b ≤ 1) : embedChan v b < 256 := by
  have h1 : v &&& 254 < 2 ^ 8 := lt_of_le_of_lt Nat.and_le_right (by norm_num)
  have h2 : b < 2 ^ 8 := by omega
  have := Nat.or_lt_two_pow h1 h2
  simpa [embedChan] using this

theorem zipWith_embedChan_mem {b : List ℕ} (hb : ∀ x ∈ b, x ≤ 1) :
    ∀ (a : List ℕ), ∀ v ∈ List.zipWith embedChan a b, v < 256 := by
  induction b with
  | nil => intro a v hv; simp at hv
  | cons x bt ih =>
    intro a v hv
    cases a with
    | nil => simp at hv
    | cons u ta =>
      simp only [List.zipWith_cons_cons, List.mem_cons] at hv
      rcases hv with rfl | hv
      · exact embedChan_lt u (hb x (by simp))
      · exact ih (fun y hy => hb y (by simp [hy])) ta v hv

theorem getD_flatMap_const {α : Type} (f : α → List ℕ) (B : ℕ)
    (hf : ∀ a, (f a).length = B) :
    ∀ (l : List α) (i j : ℕ) (hi : i < l.length), j < B →
      (l.flatMap f).getD (i * B + j) 0 = (f (l.get ⟨i, hi⟩)).getD j 0 := by
  intro l
  induction l with
  | nil => intro i j hi _; simp at hi
  | cons x t ih =>
    intro i j hi hj
    cases i with
    | zero =>
      simp only [List.flatMap_cons, Nat.zero_mul, Nat.zero_add]
      rw [List.getD_append _ _ _ _ (by rw [hf]; exact hj)]
      rfl
    | succ k =>
      simp only [List.flatMap_cons]
      have harith : (k + 1) * B + j = (f x).length + (k * B + j) := by
        rw [hf]; ring
      rw [harith, List.getD_append_right _ _ _ _ (by omega)]
      have : (f x).length + (k * B + j) - (f x).length = k * B + j := by omega
      rw [this, ih k j (by simpa using hi) hj]
      rfl

theorem inner_flatMap_length (w : ℕ) (g : Fin w → Fin 3 → ℕ) :
    ((List.finRange w).flatMap fun c => (List.finRange 3).map fun ch => g c ch).length
      = w * 3 := by
  rw [flatMap_length_const _ 3 _ (fun a _ => by simp)]
  simp

theorem flattenImg_length (h w : ℕ) (pix : Fin h → Fin w → Fin 3 → ℕ) :
    (flattenImg h w pix).length = h * (w * 3) := by
  rw [flattenImg, flatMap_length_const _ (w * 3) _
    (fun a _ => inner_flatMap_length w (pix a))]
  simp

theorem flattenImg_getD (h w : ℕ) (pix : Fin h → Fin w → Fin 3 → ℕ)
    (r : Fin h) (c : Fin w) (ch : Fin 3) :
    (flattenImg h w pix).getD (r.val * (w * 3) + c.val * 3 + ch.val) 0 = pix r c ch := by
  have hj : c.val * 3 + ch.val < w * 3 := by
    have hc := c.isLt
    have hch := ch.isLt
    omega
  have hr : r.val < (List.finRange h).length := by simpa using r.isLt
  have h1 : (flattenImg h w pix).getD (r.val * (w * 3) + (c.val * 3 + ch.val)) 0
      = (((List.finRange w).flatMap fun cc => (List.finRange 3).map fun chh =>
          pix ((List.finRange h).get ⟨r.val, hr⟩) cc chh).getD (c.val * 3 + ch.val) 0) := by
    exact getD_flatMap_const _ (w * 3)
      (fun a => inner_flatMap_length w (pix a)) (List.finRange h) r.val _ hr hj
  have hc2 : c.val < (List.finRange w).length := by simpa using c.isLt
  have h2 : (((List.finRange w).flatMap fun cc => (List.finRange 3).map fun chh =>
        pix ((List.finRange h).get ⟨r.val, hr⟩) cc chh).getD (c.val * 3 + ch.val) 0)
      = ((List.finRange 3).map fun chh =>
          pix ((List.finRange h).get ⟨r.val, hr⟩) ((List.finRange w).get ⟨c.val, hc2⟩) chh).getD
            ch.val 0 := by
    exact getD_flatMap_const _ 3 (fun a => by simp) (List.finRange w) c.val ch.val hc2 ch.isLt
  have h3 : (List.finRange h).get ⟨r.val, hr⟩ = r := by
    apply Fin.ext
    simp [List.get_finRange]
  have h4 : (List.finRange w).get ⟨c.val, hc2⟩ = c := by
    apply Fin.ext
    simp [List.get_finRange]
  have h5 : ((List.finRange 3).map fun chh => pix r c chh).getD ch.val 0 = pix r c ch := by
    have hch3 : ch.val < ((List.finRange 3).map fun chh => pix r c chh).length := by
      simpa using ch.isLt
    rw [List.getD_eq_getElem _ _ hch3]
    simp
  calc (flattenImg h w pix).getD (r.val * (w * 3) + c.val * 3 + ch.val) 0
      = (flattenImg h w pix).getD (r.val * (w * 3) + (c.val * 3 + ch.val)) 0 := by
        congr 1; omega
    _ = pix r c ch := by rw [h1, h2, h3, h4, h5]

/-- C6: for a successful embed, the output flat buffer has the input's length,
positions below `len(bitstream)` carry `(value & 0xFE) | bit`, all later
positions are untouched, all output values remain bytes, and the flattening
used is row-major channel-minor (index `r·(w·3) + c·3 + ch`). -/
theorem embed_frame_effect (h w : ℕ) (pix : Fin h → Fin w → Fin 3 → ℕ)
    (text : List ℕ) (s : ℕ) (out bits : List ℕ)
    (hok : embed_watermark_lsb (flattenImg h w pix) text s = Except.ok (out, bits))
    (hbyte : ∀ v ∈ flattenImg h w pix, v < 256) :
    bits = bitstream text s
    ∧ out.length = (flattenImg h w pix).length
    ∧ (∀ i, i < bits.length →
        out.getD i 0 = ((flattenImg h w pix).getD i 0 &&& 254) ||| bits.getD i 0)
    ∧ (∀ i, bits.length ≤ i → out.getD i 0 = (flattenImg h w pix).getD i 0)
    ∧ (∀ v ∈ out, v < 256)
    ∧ (∀ (r : Fin h) (c : Fin w) (ch : Fin 3),
        (flattenImg h w pix).getD (r.val * (w * 3) + c.val * 3 + ch.val) 0 = pix r c ch) := by
  rw [embed_def] at hok
  by_cases hgt : (bitstream text s).length > (flattenImg h w pix).length
  · rw [if_pos hgt] at hok
    exact absurd hok (by simp)
  rw [if_neg hgt] at hok
  have hpair := (Except.ok.injEq _ _).mp hok
  have hout : List.zipWith embedChan (flattenImg h w pix) (bitstream text s) ++
      (flattenImg h w pix).drop (bitstream text s).length = out := congrArg Prod.fst hpair
  have hbits : bits = bitstream text s := (congrArg Prod.snd hpair).symm
  subst hbits
  subst hout
  have hle : (bitstream text s).length ≤ (flattenImg h w pix).length := by omega
  have hzlen : (List.zipWith embedChan (flattenImg h w pix) (bitstream text s)).length
      = (bitstream text s).length := by
    rw [List.length_zipWith]
    omega
  refine ⟨rfl, ?_, ?_, ?_, ?_, fun r c ch => flattenImg_getD h w pix r c ch⟩
  · rw [List.length_append, hzlen, List.length_drop]
    omega
  · intro i hi
    rw [List.getD_append _ _ _ _ (by omega)]
    have hiz : i < (List.zipWith embedChan (flattenImg h w pix) (bitstream text s)).length := by
      omega
    rw [List.getD_eq_getElem _ _ hiz, List.getElem_zipWith,
      ← List.getD_eq_getElem _ 0 (by omega), ← List.getD_eq_getElem _ 0 (by omega)]
    rfl
  · intro i hi
    by_cases hflat : i < (flattenImg h w pix).length
    · rw [List.getD_append_right _ _ _ _ (by omega)]
      rw [hzlen]
      have hdl : i - (bitstream text s).length <
          ((flattenImg h w pix).drop (bitstream text s).length).length := by
        rw [List.length_drop]
        omega
      rw [List.getD_eq_getElem _ _ hdl, List.getElem_drop,
        ← List.getD_eq_getElem _ 0 (by omega)]
      congr 1
      omega
    · rw [List.getD_eq_default, List.getD_eq_default]
      · omega
      · rw [List.length_append, hzlen, List.length_drop]
        omega
  · intro v hv
    rcases List.mem_append.mp hv with hz | hd
    · exact zipWith_embedChan_mem (fun x hx => bitstream_mem_le_one hx) _ v hz
    · exact hbyte v (List.mem_of_mem_drop hd)

/-- Witness for `embed_frame_effect`: a 1×1 constant buffer, empty owner text,
strength 0 (empty bitstream). -/
theorem embed_frame_effect_witness :
    (flattenImg 1 1 fun _ _ _ => (7 : ℕ)).getD
      ((0 : Fin 1).val * (1 * 3) + (0 : Fin 1).val * 3 + (0 : Fin 3).val) 0 = 7 :=
  (embed_frame_effect 1 1 (fun _ _ _ => 7) [] 0 (flattenImg 1 1 fun _ _ _ => 7) []
    rfl (by decide)).2.2.2.2.2 0 0 0

/-! ### Round trip for owner text "alice" -/

theorem embedChan_mod_two (v : ℕ) {b : ℕ} (hb : b ≤ 1) : embedChan v b % 2 = b := by
  have h1 : (embedChan v b).testBit 0 = b.testBit 0 := by
    simp only [embedChan]
    rw [Nat.testBit_or, Nat.testBit_and]
    have h254 : Nat.testBit 254 0 = false := by
      rw [Nat.testBit_zero]
      norm_num
    rw [h254, Bool.and_false, Bool.false_or]
  rw [Nat.testBit_zero, Nat.testBit_zero] at h1
  have h2 := decide_eq_decide.mp h1
  omega

theorem map_mod_zipWith (b : List ℕ) :
    ∀ a : List ℕ, (∀ x ∈ b, x ≤ 1) → b.length ≤ a.length →
      (List.zipWith embedChan a b).map (fun v => v % 2) = b := by
  induction b with
  | nil => intro a _ _; simp
  | cons x bt ih =>
    intro a hx hlen
    cases a with
    | nil => simp at hlen
    | cons v ta =>
      simp only [List.zipWith_cons_cons, List.map_cons]
      rw [embedChan_mod_two v (hx x (by simp)),
        ih ta (fun y hy => hx y (by simp [hy])) (by simp at hlen; omega)]

set_option maxRecDepth 20000 in
/-- C1: on any RGB buffer whose channel capacity `h·w·3` is at least the 360
bits required by `"alice"` at strength 5, embedding succeeds and extraction of
the embedded buffer returns exactly `("alice", 1.0)`. -/
theorem roundtrip_alice (h w : ℕ) (flat : List ℕ)
    (hlen : flat.length = h * w * 3) (hcap : 360 ≤ h * w * 3) :
    ∃ out, embed_watermark_lsb flat aliceCodes 5 =
        Except.ok (out, bitstream aliceCodes 5)
      ∧ extract_watermark_lsb out = (aliceCodes, 1) := by
  have hflen : 360 ≤ flat.length := by omega
  have hBlen : (bitstream aliceCodes 5).length = 360 := by decide
  have hnot : ¬ ((bitstream aliceCodes 5).length > flat.length) := by omega
  refine ⟨_, by rw [embed_def, if_neg hnot], ?_⟩
  have hble : ∀ x ∈ bitstream aliceCodes 5, x ≤ 1 :=
    fun x hx => bitstream_mem_le_one hx
  have hmap : (List.zipWith embedChan flat (bitstream aliceCodes 5)).map (fun v => v % 2)
      = bitstream aliceCodes 5 := map_mod_zipWith _ flat hble (by omega)
  have hzlen : (List.zipWith embedChan flat (bitstream aliceCodes 5)).length = 360 := by
    rw [List.length_zipWith]
    omega
  have hpre : lsbPrefix (List.zipWith embedChan flat (bitstream aliceCodes 5) ++
      flat.drop (bitstream aliceCodes 5).length)
      = bitstream aliceCodes 5 ++
        ((flat.drop (bitstream aliceCodes 5).length).take
          (15000 - (List.zipWith embedChan flat (bitstream aliceCodes 5)).length)).map
            (fun v => v % 2) := by
    rw [lsbPrefix, List.take_append_eq_append_take,
      List.take_of_length_le (by omega), List.map_append, hmap]
  rw [extract_watermark_lsb, hpre]
  have hsplit : bitstream aliceCodes 5 =
      [0,1,1,0,0,0,0,1] ++ ([0,1,1,0,1,1,0,0] ++ ([0,1,1,0,1,0,0,1] ++
        ([0,1,1,0,0,0,1,1] ++ ([0,1,1,0,0,1,0,1] ++ ([0,1,0,0,0,0,0,0] ++
          ([0,1,0,0,0,0,0,0] ++ ([0,1,0,0,0,0,0,0] ++ ([0,1,0,0,0,0,0,0] ++
            bitstream aliceCodes 4)))))))) := by decide
  rw [hsplit]
  rw [List.append_assoc, chunks8_append8 (a := [0,1,1,0,0,0,0,1]) _ rfl]
  rw [List.append_assoc, chunks8_append8 (a := [0,1,1,0,1,1,0,0]) _ rfl]
  rw [List.append_assoc, chunks8_append8 (a := [0,1,1,0,1,0,0,1]) _ rfl]
  rw [List.append_assoc, chunks8_append8 (a := [0,1,1,0,0,0,1,1]) _ rfl]
  rw [List.append_assoc, chunks8_append8 (a := [0,1,1,0,0,1,0,1]) _ rfl]
  rw [List.append_assoc, chunks8_append8 (a := [0,1,0,0,0,0,0,0]) _ rfl]
  rw [List.append_assoc, chunks8_append8 (a := [0,1,0,0,0,0,0,0]) _ rfl]
  rw [List.append_assoc, chunks8_append8 (a := [0,1,0,0,0,0,0,0]) _ rfl]
  rw [List.append_assoc, chunks8_append8 (a := [0,1,0,0,0,0,0,0]) _ rfl]
  rfl

set_option maxRecDepth 20000 in
/-- Witness for `roundtrip_alice` at an all-zero 1×120 RGB buffer. -/
theorem roundtrip_alice_witness :
    ∃ out, embed_watermark_lsb (List.replicate 360 0) aliceCodes 5 =
        Except.ok (out, bitstream aliceCodes 5)
      ∧ extract_watermark_lsb out = (aliceCodes, 1) :=
  roundtrip_alice 1 120 (List.replicate 360 0) (by decide) (by decide)

/-! ### Heuristic scoring strategy (`ml_classifier.py`, `_heuristic_prediction`) -/

/-- The six feature values read by the heuristic prediction. -/
structure Features where
  std : ℚ
  gradient_std : ℚ
  laplacian_var : ℚ
  low_freq_ratio : ℚ
  block_mean_std : ℚ
  spectral_entropy : ℚ

/-- `min(1.0, features['std'] / 100.0) * 0.2`. -/
def stdScore (f : Features) : ℚ := min 1 (f.std / 100) * (2 / 10)

/-- `max(0, (50 - grad_std) / 50) * 0.2 if grad_std < 50 else 0`. -/
def gradScore (f : Features) : ℚ :=
  if f.gradient_std < 50 then max 0 ((50 - f.gradient_std) / 50) * (2 / 10) else 0

/-- `max(0, (100 - laplacian_var) / 100) * 0.15`. -/
def laplacianScore (f : Features) : ℚ :=
  max 0 ((100 - f.laplacian_var) / 100) * (15 / 100)

/-- `min(1.0, abs(low_freq_ratio - 0.8) / 0.3 * 0.15)`. -/
def freqScore (f : Features) : ℚ :=
  min 1 (|f.low_freq_ratio - 8 / 10| / (3 / 10) * (15 / 100))

/-- `min(1.0, block_mean_std / 100.0) * 0.15`. -/
def blockScore (f : Features) : ℚ := min 1 (f.block_mean_std / 100) * (15 / 100)

/-- `min(1.0, spectral_entropy / 10.0) * 0.15`. -/
def entropyScore (f : Features) : ℚ := min 1 (f.spectral_entropy / 10) * (15 / 100)

/-- The `scores` list accumulated by `_heuristic_prediction`, in append order. -/
def heuristicScores (f : Features) : List ℚ :=
  [stdScore f, gradScore f, laplacianScore f, freqScore f, blockScore f, entropyScore f]

/-- `float(np.mean(scores) if scores else 0.0)`. -/
def tamperingProbability (f : Features) : ℚ :=
  if heuristicScores f = [] then 0
  else (heuristicScores f).sum / (heuristicScores f).length

/-- `confidence = float(tampering_probability * 100)`. -/
def confidenceScore (f : Features) : ℚ := tamperingProbability f * 100

/-- Keys of the `feature_importance` dictionary. -/
inductive FeatKey
  | std
  | gradientStd
  | laplacianVar
  | lowFreqRatio
  | blockMeanStd
  | spectralEntropy
deriving DecidableEq

/-- The `feature_importance` dictionary: each key maps to its partial score. -/
def featureImportance (f : Features) : FeatKey → ℚ
  | .std => stdScore f
  | .gradientStd => gradScore f
  | .laplacianVar => laplacianScore f
  | .lowFreqRatio => freqScore f
  | .blockMeanStd => blockScore f
  | .spectralEntropy => entropyScore f

theorem clampMulWeight {x wgt : ℚ} (hx : 0 ≤ x) (hw : 0 ≤ wgt) :
    0 ≤ min 1 x * wgt ∧ min 1 x * wgt ≤ wgt := by
  constructor
  · exact mul_nonneg (le_min zero_le_one hx) hw
  · calc min 1 x * wgt ≤ 1 * wgt :=
        mul_le_mul_of_nonneg_right (min_le_left 1 x) hw
      _ = wgt := one_mul wgt

/-- C2 (corrected): the heuristic tampering probability is the arithmetic
mean (not the sum) of the six partial scores; the confidence is
`probability · 100`; for nonnegative feature values five of the partials lie
in `[0, weight]`, while the low-frequency partial is clamped at `1.0` (not at
its weight `0.15`); `feature_importance` records each partial. -/
theorem heuristic_prediction_mean (f : Features) (h1 : 0 ≤ f.std)
    (h2 : 0 ≤ f.gradient_std) (h3 : 0 ≤ f.laplacian_var)
    (h5 : 0 ≤ f.block_mean_std) (h6 : 0 ≤ f.spectral_entropy) :
    tamperingProbability f = (stdScore f + gradScore f + laplacianScore f +
        freqScore f + blockScore f + entropyScore f) / 6
    ∧ confidenceScore f = tamperingProbability f * 100
    ∧ (0 ≤ stdScore f ∧ stdScore f ≤ 2 / 10)
    ∧ (0 ≤ gradScore f ∧ gradScore f ≤ 2 / 10)
    ∧ (0 ≤ laplacianScore f ∧ laplacianScore f ≤ 15 / 100)
    ∧ (0 ≤ freqScore f ∧ freqScore f ≤ 1)
    ∧ (0 ≤ blockScore f ∧ blockScore f ≤ 15 / 100)
    ∧ (0 ≤ entropyScore f ∧ entropyScore f ≤ 15 / 100)
    ∧ (featureImportance f .std = stdScore f
      ∧ featureImportance f .gradientStd = gradScore f
      ∧ featureImportance f .laplacianVar = laplacianScore f
      ∧ featureImportance f .lowFreqRatio = freqScore f
      ∧ featureImportance f .blockMeanStd = blockScore f
      ∧ featureImportance f .spectralEntropy = entropyScore f) := by
  refine ⟨?_, rfl, ?_, ?_, ?_, ?_, ?_, ?_, ⟨rfl, rfl, rfl, rfl, rfl, rfl⟩⟩
  · rw [tamperingProbability, if_neg (by simp [heuristicScores])]
    simp only [heuristicScores, List.sum_cons, List.sum_nil, List.length_cons,
      List.length_nil]
    norm_num
    ring
  · exact clampMulWeight (div_nonneg h1 (by norm_num)) (by norm_num)
  · rw [gradScore]
    split_ifs with hg
    · constructor
      · exact mul_nonneg (le_max_left 0 _) (by norm_num)
      · have hle : max 0 ((50 - f.gradient_std) / 50) ≤ 1 := by
          apply max_le zero_le_one
          rw [div_le_one (by norm_num)]
          linarith
        calc max 0 ((50 - f.gradient_std) / 50) * (2 / 10) ≤ 1 * (2 / 10) :=
            mul_le_mul_of_nonneg_right hle (by norm_num)
          _ = 2 / 10 := one_mul _
    · exact ⟨le_rfl, by norm_num⟩
  · constructor
    · exact mul_nonneg (le_max_left 0 _) (by norm_num)
    · have hle : max 0 ((100 - f.laplacian_var) / 100) ≤ 1 := by
        apply max_le zero_le_one
        rw [div_le_one (by norm_num)]
        linarith
      calc max 0 ((100 - f.laplacian_var) / 100) * (15 / 100) ≤ 1 * (15 / 100) :=
          mul_le_mul_of_nonneg_right hle (by norm_num)
        _ = 15 / 100 := one_mul _
  · exact ⟨le_min zero_le_one (by positivity), min_le_left _ _⟩
  · exact clampMulWeight (div_nonneg h5 (by norm_num)) (by norm_num)
  · exact clampMulWeight (div_nonneg h6 (by norm_num)) (by norm_num)

/-- C2 counterexample: at the feature vector `(std 0, gradient_std 50,
laplacian_var 100, low_freq_ratio 0.2, block_mean_std 0, spectral_entropy 0)`
the probability is `0.05`, not the sum of the partials (`0.3`), and the
low-frequency partial (`0.3`) exceeds its weight `0.15`. -/
theorem heuristic_prediction_counterexample :
    tamperingProbability ⟨0, 50, 100, 2 / 10, 0, 0⟩ ≠
      stdScore ⟨0, 50, 100, 2 / 10, 0, 0⟩ + gradScore ⟨0, 50, 100, 2 / 10, 0, 0⟩ +
      laplacianScore ⟨0, 50, 100, 2 / 10, 0, 0⟩ + freqScore ⟨0, 50, 100, 2 / 10, 0, 0⟩ +
      blockScore ⟨0, 50, 100, 2 / 10, 0, 0⟩ + entropyScore ⟨0, 50, 100, 2 / 10, 0, 0⟩
    ∧ ¬ (freqScore ⟨0, 50, 100, 2 / 10, 0, 0⟩ ≤ 15 / 100) := by
  have habs : |(2 : ℚ) / 10 - 8 / 10| = 6 / 10 := by
    rw [abs_sub_comm, abs_of_nonneg (by norm_num : (0:ℚ) ≤ 8 / 10 - 2 / 10)]
    norm_num
  have hfreq : freqScore ⟨0, 50, 100, 2 / 10, 0, 0⟩ = 3 / 10 := by
    rw [freqScore]
    simp only
    rw [habs, min_eq_right (by norm_num)]
    norm_num
  have hstd : stdScore ⟨0, 50, 100, 2 / 10, 0, 0⟩ = 0 := by
    rw [stdScore]
    simp only
    rw [min_eq_right (by norm_num)]
    norm_num
  have hgrad : gradScore ⟨0, 50, 100, 2 / 10, 0, 0⟩ = 0 := by
    rw [gradScore, if_neg (by norm_num)]
  have hlap : laplacianScore ⟨0, 50, 100, 2 / 10, 0, 0⟩ = 0 := by
    rw [laplacianScore]
    simp only
    rw [show ((100 : ℚ) - 100) / 100 = 0 by norm_num, max_self]
    norm_num
  have hblock : blockScore ⟨0, 50, 100, 2 / 10, 0, 0⟩ = 0 := by
    rw [blockScore]
    simp only
    rw [min_eq_right (by norm_num)]
    norm_num
  have hent : entropyScore ⟨0, 50, 100, 2 / 10, 0, 0⟩ = 0 := by
    rw [entropyScore]
    simp only
    rw [min_eq_right (by norm_num)]
    norm_num
  have hprob : tamperingProbability ⟨0, 50, 100, 2 / 10, 0, 0⟩ = 1 / 20 := by
    rw [tamperingProbability, if_neg (by simp [heuristicScores])]
    simp only [heuristicScores, List.sum_cons, List.sum_nil, List.length_cons,
      List.length_nil]
    rw [hstd, hgrad, hlap, hfreq, hblock, hent]
    norm_num
  rw [hprob, hstd, hgrad, hlap, hfreq, hblock, hent]
  norm_num

/-- Witness for `heuristic_prediction_mean` at the all-zero feature vector with
baseline frequency ratio. -/
theorem heuristic_prediction_mean_witness :
    tamperingProbability ⟨0, 0, 0, 8 / 10, 0, 0⟩ =
      (stdScore ⟨0, 0, 0, 8 / 10, 0, 0⟩ + gradScore ⟨0, 0, 0, 8 / 10, 0, 0⟩ +
        laplacianScore ⟨0, 0, 0, 8 / 10, 0, 0⟩ + freqScore ⟨0, 0, 0, 8 / 10, 0, 0⟩ +
        blockScore ⟨0, 0, 0, 8 / 10, 0, 0⟩ + entropyScore ⟨0, 0, 0, 8 / 10, 0, 0⟩) / 6
    ∧ (0 ≤ freqScore ⟨0, 0, 0, 8 / 10, 0, 0⟩ ∧ freqScore ⟨0, 0, 0, 8 / 10, 0, 0⟩ ≤ 1) :=
  ⟨(heuristic_prediction_mean ⟨0, 0, 0, 8 / 10, 0, 0⟩ le_rfl le_rfl le_rfl le_rfl le_rfl).1,
   (heuristic_prediction_mean ⟨0, 0, 0, 8 / 10, 0, 0⟩ le_rfl le_rfl le_rfl le_rfl le_rfl).2.2.2.2.2.1⟩

/-! ### Detection orchestrator (`detection.py`) -/

/-- `_compute_overall_confidence`: `min(100, max(0, F·0.6 + ml·0.4))`. -/
def overallConfidence (F ml : ℚ) : ℚ :=
  min 100 (max 0 (F * (6 / 10) + ml * (4 / 10)))

/-- `likely_removed = overall_confidence > 60`. -/
def likelyRemoved (F ml : ℚ) : Bool := overallConfidence F ml > 60

/-- The `TamperingConfidence` enumeration. -/
inductive TamperingConfidence
  | veryLow
  | low
  | medium
  | high
  | veryHigh
deriving DecidableEq

/-- The `.value` strings of the enumeration. -/
def levelValue : TamperingConfidence → String
  | .veryLow => "Very Low (0-20%)"
  | .low => "Low (20-40%)"
  | .medium => "Medium (40-60%)"
  | .high => "High (60-80%)"
  | .veryHigh => "Very High (80-100%)"

/-- Branching of `_get_confidence_level`. -/
def getConfidenceLevel (c : ℚ) : TamperingConfidence :=
  if c < 20 then .veryLow
  else if c < 40 then .low
  else if c < 60 then .medium
  else if c < 80 then .high
  else .veryHigh

/-- `_get_confidence_level` returns the enumeration's `.value` string. -/
def getConfidenceLevelValue (c : ℚ) : String := levelValue (getConfidenceLevel c)

/-- C8: overall confidence is the clamped `0.6/0.4` fusion, the
likely-tampered flag holds exactly when it exceeds 60, the level label follows
the buckets Very Low `[0,20)`, Low `[20,40)`, Medium `[40,60)`, High
`[60,80)`, Very High `[80,100]`, and the `F = 80, ml = 50` scenario gives
`overall = 68`, flag `true`, level `"High"`. -/
theorem fusion_and_levels :
    (∀ F ml : ℚ, overallConfidence F ml = min 100 (max 0 (F * (6 / 10) + ml * (4 / 10)))
      ∧ (likelyRemoved F ml = true ↔ 60 < overallConfidence F ml))
    ∧ (∀ c : ℚ, 0 ≤ c → c ≤ 100 →
        ((getConfidenceLevel c = .veryLow ↔ c < 20)
        ∧ (getConfidenceLevel c = .low ↔ 20 ≤ c ∧ c < 40)
        ∧ (getConfidenceLevel c = .medium ↔ 40 ≤ c ∧ c < 60)
        ∧ (getConfidenceLevel c = .high ↔ 60 ≤ c ∧ c < 80)
        ∧ (getConfidenceLevel c = .veryHigh ↔ 80 ≤ c)))
    ∧ overallConfidence 80 50 = 68
    ∧ likelyRemoved 80 50 = true
    ∧ getConfidenceLevelValue (overallConfidence 80 50) = "High (60-80%)" := by
  have hsum : (80 : ℚ) * (6 / 10) + 50 * (4 / 10) = 68 := by norm_num
  have hov : overallConfidence 80 50 = 68 := by
    rw [overallConfidence, hsum, max_eq_right (by norm_num), min_eq_right (by norm_num)]
  refine ⟨fun F ml => ⟨rfl, ?_⟩, ?_, hov, ?_, ?_⟩
  · simp only [likelyRemoved]
    exact decide_eq_true_iff
  · intro c hc0 hc100
    rw [getConfidenceLevel]
    split_ifs with hA hB hC hD <;>
      refine ⟨?_, ?_, ?_, ?_, ?_⟩ <;> simp_all <;> intros <;> linarith
  · rw [likelyRemoved]
    rw [decide_eq_true_iff, hov]
    norm_num
  · rw [getConfidenceLevelValue, hov, getConfidenceLevel,
      if_neg (by norm_num), if_neg (by norm_num), if_neg (by norm_num),
      if_pos (by norm_num)]
    rfl

/-- Witness for `fusion_and_levels` at `c = 50` and `F = 1, ml = 2`. -/
theorem fusion_and_levels_witness :
    (getConfidenceLevel 50 = TamperingConfidence.medium ↔ 40 ≤ (50 : ℚ) ∧ (50 : ℚ) < 60)
    ∧ (likelyRemoved 1 2 = true ↔ 60 < overallConfidence 1 2) :=
  ⟨(fusion_and_levels.2.1 50 (by norm_num) (by norm_num)).2.2.1,
   (fusion_and_levels.1 1 2).2⟩

/-! ### Forensics analyzer (`forensics.py`)

The detectors operate on the grayscale image, modelled as a function
`Fin (h+1) → Fin (w+1) → ℝ` (the `+1` keeps the buffer nonempty, matching the
`image.size == 0` guard in `analyze_image`). Border handling follows OpenCV's
default `BORDER_REFLECT_101`. -/

noncomputable section

/-- The epsilon guard `1e-6` used throughout the forensic computations. -/
def epsGuard : ℝ := 1 / 1000000

/-- Natural number reduced into `Fin (n+1)` (identity on in-range indices). -/
def finClip {n : ℕ} (i : ℕ) : Fin (n + 1) :=
  ⟨i % (n + 1), Nat.mod_lt _ (Nat.succ_pos n)⟩

/-- OpenCV `borderInterpolate` with `BORDER_REFLECT_101` for the one-pixel
reach of a 3×3 kernel: `-1 ↦ 1` and `n ↦ n-2`; a length-1 axis maps to 0. -/
def reflect101 (n : ℕ) (i : ℤ) : ℕ :=
  if n ≤ 1 then 0
  else if i < 0 then (-i).toNat
  else if (n : ℤ) ≤ i then (2 * ((n : ℤ) - 1) - i).toNat
  else i.toNat

/-- Pixel access with reflected border. -/
def grayAt {h w : ℕ} (g : Fin (h + 1) → Fin (w + 1) → ℝ) (i j : ℤ) : ℝ :=
  g (finClip (reflect101 (h + 1) i)) (finClip (reflect101 (w + 1) j))

/-- `cv2.Laplacian(gray, CV_64F)` with the default aperture: the 3×3 kernel
`[[0,1,0],[1,-4,1],[0,1,0]]`. -/
def laplacian {h w : ℕ} (g : Fin (h + 1) → Fin (w + 1) → ℝ)
    (p : Fin (h + 1) × Fin (w + 1)) : ℝ :=
  grayAt g ((p.1.val : ℤ) - 1) (p.2.val : ℤ) + grayAt g ((p.1.val : ℤ) + 1) (p.2.val : ℤ)
    + grayAt g (p.1.val : ℤ) ((p.2.val : ℤ) - 1) + grayAt g (p.1.val : ℤ) ((p.2.val : ℤ) + 1)
    - 4 * grayAt g (p.1.val : ℤ) (p.2.val : ℤ)

/-- Mean of a per-pixel quantity over the whole image. -/
def meanOver {h w : ℕ} (q : Fin (h + 1) × Fin (w + 1) → ℝ) : ℝ :=
  (∑ p, q p) / ((h + 1) * (w + 1))

/-- Population variance (`np.var`) of a per-pixel quantity. -/
def varOver {h w : ℕ} (q : Fin (h + 1) × Fin (w + 1) → ℝ) : ℝ :=
  meanOver (fun p => (q p - meanOver q) ^ 2)

/-- `laplacian.var()`. -/
def lapVariance {h w : ℕ} (g : Fin (h + 1) → Fin (w + 1) → ℝ) : ℝ :=
  varOver (laplacian g)

/-- `detect_blur` confidence:
`max(0, min(100, 100 - variance / threshold * 100))` with threshold 100. -/
def blurConfidence {h w : ℕ} (g : Fin (h + 1) → Fin (w + 1) → ℝ) : ℝ :=
  max 0 (min 100 (100 - lapVariance g / 100 * 100))

/-- Start row/column of tile `i` in the 4×4 grid over an axis of length `n+1`. -/
def tileLo (n i : ℕ) : ℕ := i * ((n + 1) / 4)

/-- End row/column (exclusive) of tile `i`; the last tile extends to the edge. -/
def tileHi (n i : ℕ) : ℕ := if i < 3 then (i + 1) * ((n + 1) / 4) else n + 1

/-- The set of pixel coordinates of grid tile `(i, j)`. -/
def tileSet (h w i j : ℕ) : Finset (Fin (h + 1) × Fin (w + 1)) :=
  Finset.univ.filter fun p =>
    tileLo h i ≤ p.1.val ∧ p.1.val < tileHi h i ∧ tileLo w j ≤ p.2.val ∧ p.2.val < tileHi w j

/-- Mean of a quantity over a finite index set. -/
def setMean {ι : Type} (s : Finset ι) (q : ι → ℝ) : ℝ := (∑ p ∈ s, q p) / s.card

/-- Population standard deviation (`np.std`) over a finite index set. -/
def setStd {ι : Type} (s : Finset ι) (q : ι → ℝ) : ℝ :=
  Real.sqrt ((∑ p ∈ s, (q p - setMean s q) ^ 2) / s.card)

/-- The `noise_levels` list: the std of each nonempty tile, in row-major tile
order. -/
def noiseLevels {h w : ℕ} (g : Fin (h + 1) → Fin (w + 1) → ℝ) : List ℝ :=
  (List.range 4).flatMap fun i => (List.range 4).filterMap fun j =>
    if (tileSet h w i j).Nonempty
    then some (setStd (tileSet h w i j) (fun p => g p.1 p.2))
    else none

/-- `np.mean` of a list. -/
def listMean (l : List ℝ) : ℝ := l.sum / l.length

/-- `np.std` of a list (population). -/
def listStd (l : List ℝ) : ℝ :=
  Real.sqrt ((l.map fun x => (x - listMean l) ^ 2).sum / l.length)

/-- `detect_noise_inconsistency` confidence: 0 when no tile could be analyzed,
otherwise `min(100, max(0, std(levels) / (mean(levels) + 1e-6) * 30))`. -/
def noiseConfidence {h w : ℕ} (g : Fin (h + 1) → Fin (w + 1) → ℝ) : ℝ :=
  if noiseLevels g = [] then 0
  else min 100 (max 0 (listStd (noiseLevels g) / (listMean (noiseLevels g) + epsGuard) * 30))

/-- `cv2.filter2D` with the high-pass kernel
`[[-1,-1,-1],[-1,8,-1],[-1,-1,-1]]` (correlation, reflected border). -/
def highPass {h w : ℕ} (g : Fin (h + 1) → Fin (w + 1) → ℝ)
    (p : Fin (h + 1) × Fin (w + 1)) : ℝ :=
  8 * grayAt g (p.1.val : ℤ) (p.2.val : ℤ)
    - grayAt g ((p.1.val : ℤ) - 1) ((p.2.val : ℤ) - 1)
    - grayAt g ((p.1.val : ℤ) - 1) (p.2.val : ℤ)
    - grayAt g ((p.1.val : ℤ) - 1) ((p.2.val : ℤ) + 1)
    - grayAt g (p.1.val : ℤ) ((p.2.val : ℤ) - 1)
    - grayAt g (p.1.val : ℤ) ((p.2.val : ℤ) + 1)
    - grayAt g ((p.1.val : ℤ) + 1) ((p.2.val : ℤ) - 1)
    - grayAt g ((p.1.val : ℤ) + 1) (p.2.val : ℤ)
    - grayAt g ((p.1.val : ℤ) + 1) ((p.2.val : ℤ) + 1)

/-- Indices visited by `range(8, n+1, 8)`: the positive multiples of 8 below
the axis length. -/
def blockIdxList (n : ℕ) : List ℕ :=
  (List.range n).filter fun i => i % 8 == 0 && i != 0

/-- The `boundary_samples` list: `|filtered|` at every 8×8 grid intersection. -/
def boundarySamples {h w : ℕ} (g : Fin (h + 1) → Fin (w + 1) → ℝ) : List ℝ :=
  (blockIdxList (h + 1)).flatMap fun i =>
    (blockIdxList (w + 1)).map fun j => |highPass g (finClip i, finClip j)|

/-- `blockiness`: 0 when there are no samples, else their mean. -/
def blockiness {h w : ℕ} (g : Fin (h + 1) → Fin (w + 1) → ℝ) : ℝ :=
  if boundarySamples g = [] then 0 else listMean (boundarySamples g)

/-- `detect_compression_artifacts` confidence:
`min(100, max(0, blockiness / 20 * 100))`. -/
def compressionConfidence {h w : ℕ} (g : Fin (h + 1) → Fin (w + 1) → ℝ) : ℝ :=
  min 100 (max 0 (blockiness g / 20 * 100))

/-- Edge density of tile `(i, j)` of an edge map:
`np.sum(tile > 0) / (tile.size + 1e-6)`. -/
def edgeDensity {h w : ℕ} (e : Fin (h + 1) → Fin (w + 1) → ℝ) (i j : ℕ) : ℝ :=
  (((tileSet h w i j).filter fun p => 0 < e p.1 p.2).card : ℝ)
    / ((tileSet h w i j).card + epsGuard)

/-- The 16 per-tile edge densities, in row-major tile order. -/
def edgeDensities {h w : ℕ} (e : Fin (h + 1) → Fin (w + 1) → ℝ) : List ℝ :=
  (List.range 4).flatMap fun i => (List.range 4).map fun j => edgeDensity e i j

/-- Number of tiles whose density deviates from the mean by more than 2.5
standard deviations. -/
def edgeAnomalyCount {h w : ℕ} (e : Fin (h + 1) → Fin (w + 1) → ℝ) : ℕ :=
  ((edgeDensities e).filter fun d =>
    decide (5 / 2 * listStd (edgeDensities e) < |d - listMean (edgeDensities e)|)).length

/-- `anomaly_percentage = anomalies / len(edge_densities) * 100`. -/
def edgeAnomalyPct {h w : ℕ} (e : Fin (h + 1) → Fin (w + 1) → ℝ) : ℝ :=
  (edgeAnomalyCount e : ℝ) / ((edgeDensities e).length : ℝ) * 100

/-- `detect_edge_anomalies` confidence:
`min(100, max(0, anomaly_percentage * 1.5))`. The Canny edge map enters as the
function `e`; the confidence bound below holds for every possible edge map. -/
def edgeConfidence {h w : ℕ} (e : Fin (h + 1) → Fin (w + 1) → ℝ) : ℝ :=
  min 100 (max 0 (edgeAnomalyPct e * (3 / 2)))

/-- `np.fft.fft2`: the 2-D discrete Fourier transform. -/
def dft2 {h w : ℕ} (g : Fin (h + 1) → Fin (w + 1) → ℝ)
    (u : Fin (h + 1)) (v : Fin (w + 1)) : ℂ :=
  ∑ x : Fin (h + 1), ∑ y : Fin (w + 1),
    ((g x y : ℝ) : ℂ) * Complex.exp (-2 * (Real.pi : ℂ) * Complex.I *
      ((((u.val * x.val : ℕ) : ℝ) / ((h : ℝ) + 1) + ((v.val * y.val : ℕ) : ℝ) / ((w : ℝ) + 1) : ℝ) : ℂ))

/-- `np.fft.fftshift` index map along one axis (`roll` by `n // 2`). -/
def shiftIdx {n : ℕ} (i : Fin (n + 1)) : Fin (n + 1) :=
  finClip (i.val + (n + 1) - (n + 1) / 2)

/-- Magnitude of the shifted spectrum. -/
def specMag {h w : ℕ} (g : Fin (h + 1) → Fin (w + 1) → ℝ)
    (p : Fin (h + 1) × Fin (w + 1)) : ℝ :=
  Complex.abs (dft2 g (shiftIdx p.1) (shiftIdx p.2))

/-- `np.log(magnitude + 1)`. -/
def logMag {h w : ℕ} (g : Fin (h + 1) → Fin (w + 1) → ℝ)
    (p : Fin (h + 1) × Fin (w + 1)) : ℝ :=
  Real.log (specMag g p + 1)

/-- `log_magnitude.min()`. -/
def logMagMin {h w : ℕ} (g : Fin (h + 1) → Fin (w + 1) → ℝ) : ℝ :=
  Finset.univ.inf' Finset.univ_nonempty (logMag g)

/-- `log_magnitude.max()`. -/
def logMagMax {h w : ℕ} (g : Fin (h + 1) → Fin (w + 1) → ℝ) : ℝ :=
  Finset.univ.sup' Finset.univ_nonempty (logMag g)

/-- Min-max normalized log magnitude
`(lm - lm.min()) / (lm.max() - lm.min() + 1e-6)`. -/
def normMag {h w : ℕ} (g : Fin (h + 1) → Fin (w + 1) → ℝ)
    (p : Fin (h + 1) × Fin (w + 1)) : ℝ :=
  (logMag g p - logMagMin g) / (logMagMax g - logMagMin g + epsGuard)

/-- Center coordinate `n // 2` of an axis of length `n+1`. -/
def centerIdx (n : ℕ) : ℕ := (n + 1) / 2

/-- `inner_radius = min(center_h, center_w) // 4`. -/
def innerRadius (h w : ℕ) : ℕ := min (centerIdx h) (centerIdx w) / 4

/-- The low-frequency disk `(cy - ch)² + (cx - cw)² ≤ r²`. -/
def innerMask (h w : ℕ) (p : Fin (h + 1) × Fin (w + 1)) : Prop :=
  ((p.1.val : ℤ) - centerIdx h) ^ 2 + ((p.2.val : ℤ) - centerIdx w) ^ 2
    ≤ (innerRadius h w : ℤ) ^ 2

instance (h w : ℕ) : DecidablePred (innerMask h w) := fun p => by
  unfold innerMask
  infer_instance

/-- Energy of the normalized spectrum inside the low-frequency disk. -/
def lowFreqEnergy {h w : ℕ} (g : Fin (h + 1) → Fin (w + 1) → ℝ) : ℝ :=
  ∑ p ∈ Finset.univ.filter (innerMask h w), normMag g p

/-- Total energy of the normalized spectrum. -/
def totalEnergy {h w : ℕ} (g : Fin (h + 1) → Fin (w + 1) → ℝ) : ℝ :=
  ∑ p, normMag g p

/-- `low_freq_ratio = low_freq_energy / (total_energy + 1e-6)`. -/
def lowFreqRatio {h w : ℕ} (g : Fin (h + 1) → Fin (w + 1) → ℝ) : ℝ :=
  lowFreqEnergy g / (totalEnergy g + epsGuard)

/-- `detect_frequency_anomalies` confidence:
`min(100, max(0, |low_freq_ratio - 0.80| * 200))`. -/
def freqConfidence {h w : ℕ} (g : Fin (h + 1) → Fin (w + 1) → ℝ) : ℝ :=
  min 100 (max 0 (|lowFreqRatio g - 8 / 10| * 200))

/-- `get_summary_confidence` on the five detector results (weights 0.25, 0.25,
0.20, 0.15, 0.15; total weight 1.0): the epsilon-guarded weighted mean,
clamped. -/
def summaryConfidence (b n c e f : ℝ) : ℝ :=
  min 100 (max 0 ((b * (25 / 100) + n * (25 / 100) + c * (20 / 100)
    + e * (15 / 100) + f * (15 / 100)) / (1 + epsGuard)))

end

/-! ### Clamping invariants -/

theorem clamp_lohi (x : ℝ) : 0 ≤ min 100 (max 0 x) ∧ min 100 (max 0 x) ≤ 100 :=
  ⟨le_min (by norm_num) (le_max_left 0 x), min_le_left _ _⟩

theorem clamp_hilo (x : ℝ) : 0 ≤ max 0 (min 100 x) ∧ max 0 (min 100 x) ≤ 100 :=
  ⟨le_max_left _ _, max_le (by norm_num) (min_le_left _ _)⟩

theorem clamp_lohi_rat (x : ℚ) : 0 ≤ min 100 (max 0 x) ∧ min 100 (max 0 x) ≤ 100 :=
  ⟨le_min (by norm_num) (le_max_left 0 x), min_le_left _ _⟩

/-- C9: for every grayscale buffer (of any positive dimensions, covering the
degenerate pure-black, pure-white and 1×1 cases) and every edge map, all five
detector confidences, the weighted forensic aggregate, and the overall
detection confidence lie in `[0, 100]`. -/
theorem confidences_clamped (h w : ℕ) (g e : Fin (h + 1) → Fin (w + 1) → ℝ) :
    (0 ≤ blurConfidence g ∧ blurConfidence g ≤ 100)
    ∧ (0 ≤ noiseConfidence g ∧ noiseConfidence g ≤ 100)
    ∧ (0 ≤ compressionConfidence g ∧ compressionConfidence g ≤ 100)
    ∧ (0 ≤ edgeConfidence e ∧ edgeConfidence e ≤ 100)
    ∧ (0 ≤ freqConfidence g ∧ freqConfidence g ≤ 100)
    ∧ (0 ≤ summaryConfidence (blurConfidence g) (noiseConfidence g)
          (compressionConfidence g) (edgeConfidence e) (freqConfidence g)
      ∧ summaryConfidence (blurConfidence g) (noiseConfidence g)
          (compressionConfidence g) (edgeConfidence e) (freqConfidence g) ≤ 100)
    ∧ (∀ F ml : ℚ, 0 ≤ overallConfidence F ml ∧ overallConfidence F ml ≤ 100) := by
  refine ⟨clamp_hilo _, ?_, clamp_lohi _, clamp_lohi _, clamp_lohi _,
    clamp_lohi _, fun F ml => clamp_lohi_rat _⟩
  rw [noiseConfidence]
  split_ifs
  · exact ⟨le_rfl, by norm_num⟩
  · exact clamp_lohi _

/-! ### The uniform black 4×4 scenario -/

/-- The uniform 4×4 all-black grayscale image. -/
def zeroImg4 : Fin (3 + 1) → Fin (3 + 1) → ℝ := fun _ _ => 0

theorem grayAt_zero4 (i j : ℤ) : grayAt zeroImg4 i j = 0 := rfl

theorem lapVariance_zero4 : lapVariance zeroImg4 = 0 := by
  simp [lapVariance, varOver, meanOver, laplacian, grayAt, zeroImg4]

theorem blur_zero4 : blurConfidence zeroImg4 = 100 := by
  rw [blurConfidence, lapVariance_zero4]
  have hv : (100 : ℝ) - 0 / 100 * 100 = 100 := by norm_num
  rw [hv, min_self, max_eq_right (by norm_num : (0 : ℝ) ≤ 100)]

theorem dft2_zero4 (u v : Fin (3 + 1)) : dft2 zeroImg4 u v = 0 := by
  simp [dft2, zeroImg4]

theorem specMag_zero4 (p : Fin (3 + 1) × Fin (3 + 1)) : specMag zeroImg4 p = 0 := by
  simp [specMag, dft2_zero4]

theorem logMag_zero4 (p : Fin (3 + 1) × Fin (3 + 1)) : logMag zeroImg4 p = 0 := by
  simp [logMag, specMag_zero4]

theorem logMag_fun_zero4 : logMag zeroImg4 = fun _ => (0 : ℝ) :=
  funext logMag_zero4

theorem logMagMin_zero4 : logMagMin zeroImg4 = 0 := by
  rw [logMagMin, logMag_fun_zero4, Finset.inf'_const]

theorem logMagMax_zero4 : logMagMax zeroImg4 = 0 := by
  rw [logMagMax, logMag_fun_zero4, Finset.sup'_const]

theorem normMag_zero4 (p : Fin (3 + 1) × Fin (3 + 1)) : normMag zeroImg4 p = 0 := by
  rw [normMag, logMag_zero4, logMagMin_zero4, logMagMax_zero4]
  simp

theorem lowFreqRatio_zero4 : lowFreqRatio zeroImg4 = 0 := by
  rw [lowFreqRatio, lowFreqEnergy, totalEnergy]
  simp [normMag_zero4]

theorem freq_zero4 : freqConfidence zeroImg4 = 100 := by
  rw [freqConfidence, lowFreqRatio_zero4]
  have habs : |(0 : ℝ) - 8 / 10| = 8 / 10 := by
    rw [zero_sub, abs_neg, abs_of_nonneg (by norm_num : (0 : ℝ) ≤ 8 / 10)]
  rw [habs, show (8 : ℝ) / 10 * 200 = 160 by norm_num,
    max_eq_right (by norm_num : (0 : ℝ) ≤ 160),
    min_eq_left (by norm_num : (100 : ℝ) ≤ 160)]

/-- C3 counterexample: on the uniform 4×4 black image the whole spectrum is
zero, so the normalized low-frequency ratio is 0 (not 1.0) and the frequency
anomaly confidence is `min(100, |0 − 0.8|·200) = 100`, not 40. -/
theorem deterministic_black_counterexample :
    lowFreqRatio zeroImg4 ≠ 1 ∧ freqConfidence zeroImg4 ≠ 40 := by
  refine ⟨?_, ?_⟩
  · rw [lowFreqRatio_zero4]
    norm_num
  · rw [freq_zero4]
    norm_num

/-- C3 (corrected): on the uniform 4×4 black image the Blur confidence is 100
(Laplacian variance 0), and the FrequencyAnomaly detector computes
`lowFreqRatio = 0` (the normalized log-magnitude spectrum is identically zero
and the ratio is epsilon-guarded), hence confidence
`clamp(|0 − 0.80|·200, 0, 100) = 100`. -/
theorem deterministic_black_scenario :
    blurConfidence zeroImg4 = 100
    ∧ lowFreqRatio zeroImg4 = 0
    ∧ freqConfidence zeroImg4 = 100 :=
  ⟨blur_zero4, lowFreqRatio_zero4, freq_zero4⟩

end PNGProtect
